import Mathlib

/-!
Verification of the bounded worker pool demonstrated in `Go/GoSample/main.go`
(`worker`, lines 96-119, and `demonstrateWorkerPool`, lines 421-475), and of the
`divide` function (lines 58-69).

The pool in the source works as follows. `demonstrateWorkerPool` creates a
buffered `jobs` channel and a buffered `results` channel, both of capacity
`numJobs`; it starts `numWorkers` goroutines running `worker`; it sends the job
numbers `1 .. numJobs` on `jobs` and closes `jobs`; a further goroutine waits on
the `sync.WaitGroup` and then closes `results`; finally the main goroutine
drains `results` with a range loop. Each `worker` repeatedly receives a job
from `jobs` (the range loop ends when `jobs` is closed and empty), sends
`job * 2` on `results`, and on loop exit calls `wg.Done()` via `defer`.

The embedding below is a small-step transition system over an explicit pool
state, parameterised by the worker count `N` and the job count `M` (the source
fixes the constants `numWorkers = 3` and `numJobs = 9`; the transition rules
are those of the source code, with the two constants generalised). Because the
`jobs` channel has capacity `M`, the producer loop completes without blocking
and the channel carries exactly the FIFO sequence `1 .. M`; the initial state
therefore holds the already-closed job queue `[1, .., M]`. Scheduling of the
goroutines is fully nondeterministic: any interleaving of claims, publishes,
worker exits, the one close and consumer receives is a path of the relation.
-/

/-- Status of one worker goroutine, following the body of `worker`
(main.go:96-119): `idle` is at the top of the `for job := range jobs` loop,
`busy j` has received job `j` and is about to send `j * 2` on `results`,
`done` has left the loop (jobs channel closed and empty) and has executed the
deferred `wg.Done()`. -/
inductive WStatus where
  | idle : WStatus
  | busy : Nat → WStatus
  | done : WStatus
deriving DecidableEq

/-- Global state of one run of `demonstrateWorkerPool` (main.go:421-475):
the remaining contents of the `jobs` channel (already closed), the status of
each worker goroutine, the FIFO buffer of the `results` channel, the values
already received by the consuming range loop, whether `close(results)` has
happened, how many times `close(results)` has executed, and a history of
claims `(worker index, job)` in the order the jobs were received from the
`jobs` channel. -/
structure PoolState where
  queue : List Nat
  workers : List WStatus
  buf : List Nat
  collected : List Nat
  closed : Bool
  closeCount : Nat
  claims : List (Nat × Nat)
deriving DecidableEq

/-- Per-job computation of `worker` (main.go:117): `results <- job * 2`. -/
def processJob (job : Nat) : Nat := job * 2

/-- Jobs sent by `demonstrateWorkerPool` (main.go:453-455):
`for j := 1; j <= numJobs; j++ { jobs <- j }`, the list `[1, 2, .., M]`. -/
def jobList (M : Nat) : List Nat := (List.range M).map (· + 1)

/-- Initial state: all `M` jobs queued on the closed `jobs` channel, `N`
workers at the top of their receive loop, nothing produced, `results` open. -/
def initState (N M : Nat) : PoolState :=
  { queue := jobList M
    workers := List.replicate N WStatus.idle
    buf := []
    collected := []
    closed := false
    closeCount := 0
    claims := [] }

/-- One scheduling step of the system in `demonstrateWorkerPool`:
* `claim`: an idle worker receives the next job from the `jobs` channel
  (receives on a Go channel are mutually exclusive and FIFO);
* `publish`: a busy worker sends `processJob j` on `results` (the buffer has
  capacity `M` and at most `M` values are ever sent, so the send cannot
  block);
* `retire`: an idle worker sees the jobs channel closed and empty, leaves its
  range loop and runs the deferred `wg.Done()`;
* `closeRes`: the closer goroutine (main.go:462-468) returns from `wg.Wait()`
  once every worker has called `wg.Done()` and executes `close(results)` once;
* `consume`: the main range loop (main.go:472-474) receives one value from
  the `results` buffer. -/
inductive Step : PoolState → PoolState → Prop where
  | claim (pre post : List WStatus) (j : Nat)
      (q b c : List Nat) (cl : Bool) (cc : Nat) (ks : List (Nat × Nat)) :
      Step ⟨j :: q, pre ++ WStatus.idle :: post, b, c, cl, cc, ks⟩
           ⟨q, pre ++ WStatus.busy j :: post, b, c, cl, cc,
            ks ++ [(pre.length, j)]⟩
  | publish (pre post : List WStatus) (j : Nat)
      (q b c : List Nat) (cl : Bool) (cc : Nat) (ks : List (Nat × Nat)) :
      Step ⟨q, pre ++ WStatus.busy j :: post, b, c, cl, cc, ks⟩
           ⟨q, pre ++ WStatus.idle :: post, b ++ [processJob j], c, cl, cc, ks⟩
  | retire (pre post : List WStatus)
      (b c : List Nat) (cl : Bool) (cc : Nat) (ks : List (Nat × Nat)) :
      Step ⟨[], pre ++ WStatus.idle :: post, b, c, cl, cc, ks⟩
           ⟨[], pre ++ WStatus.done :: post, b, c, cl, cc, ks⟩
  | closeRes (q : List Nat) (ws : List WStatus) (b c : List Nat)
      (ks : List (Nat × Nat)) (hall : ∀ w ∈ ws, w = WStatus.done) :
      Step ⟨q, ws, b, c, false, 0, ks⟩
           ⟨q, ws, b, c, true, 1, ks⟩
  | consume (r : Nat) (q : List Nat) (ws : List WStatus) (rest c : List Nat)
      (cl : Bool) (cc : Nat) (ks : List (Nat × Nat)) :
      Step ⟨q, ws, r :: rest, c, cl, cc, ks⟩
           ⟨q, ws, rest, c ++ [r], cl, cc, ks⟩

/-- States reachable by some interleaving of a pool run with `N` workers and
`M` jobs. -/
inductive Reach (N M : Nat) : PoolState → Prop where
  | init : Reach N M (initState N M)
  | step {s t : PoolState} : Reach N M s → Step s t → Reach N M t

/-- A run is complete when every worker has exited its loop (the WaitGroup
counter is zero), `close(results)` has happened, and the consumer has drained
the `results` buffer - exactly the condition under which the range loop of
main.go:472-474 terminates. -/
def Completed (s : PoolState) : Prop :=
  (∀ w ∈ s.workers, w = WStatus.done) ∧ s.closed = true ∧ s.buf = []

instance (s : PoolState) : Decidable (Completed s) := by
  unfold Completed; infer_instance

/-- Jobs currently claimed but not yet published, in worker order. -/
def busyList (l : List WStatus) : List Nat :=
  l.filterMap fun w => match w with
    | WStatus.busy j => some j
    | _ => none

/-- Inductive invariant of the pool, established by `reach_inv` for every
reachable state. The fields:
* `wlen`: the worker count is fixed at `N` for the lifetime of the pool;
* `conserve`: the jobs received so far (in FIFO order) followed by the jobs
  still queued are exactly the submitted batch - the channel neither loses,
  duplicates nor reorders jobs;
* `resCount`: counting multiplicities, queued jobs, claimed-but-unpublished
  jobs, buffered results and consumed results add up to the full batch;
* `doneEmpty`: a worker only ever exits after the job queue is exhausted;
* `closedDone`: `close(results)` happens only after every worker has exited;
* `closeOnce` and `closeIff`: `close(results)` executes at most once, and the
  channel is closed exactly when it has executed once;
* `wid`: every claim was made by one of the `N` workers. -/
structure PoolInv (N M : Nat) (s : PoolState) : Prop where
  wlen : s.workers.length = N
  conserve : s.claims.map Prod.snd ++ s.queue = jobList M
  resCount : ∀ r : Nat,
    (s.queue.map processJob).count r
      + ((busyList s.workers).map processJob).count r
      + s.buf.count r + s.collected.count r
      = ((jobList M).map processJob).count r
  doneEmpty : WStatus.done ∈ s.workers → s.queue = []
  closedDone : s.closed = true → ∀ w ∈ s.workers, w = WStatus.done
  closeOnce : s.closeCount ≤ 1
  closeIff : s.closed = true ↔ s.closeCount = 1
  wid : ∀ p ∈ s.claims, p.1 < N

lemma busyList_append (l₁ l₂ : List WStatus) :
    busyList (l₁ ++ l₂) = busyList l₁ ++ busyList l₂ :=
  List.filterMap_append l₁ l₂ _

lemma busyList_idle_cons (l : List WStatus) :
    busyList (WStatus.idle :: l) = busyList l := rfl

lemma busyList_busy_cons (j : Nat) (l : List WStatus) :
    busyList (WStatus.busy j :: l) = j :: busyList l := rfl

lemma busyList_done_cons (l : List WStatus) :
    busyList (WStatus.done :: l) = busyList l := rfl

lemma busyList_replicate_idle (n : Nat) :
    busyList (List.replicate n WStatus.idle) = [] := by
  induction n with
  | zero => rfl
  | succ n ih => simpa [List.replicate_succ, busyList_idle_cons] using ih

/-- Every reachable state satisfies the invariant `Inv`. -/
lemma reach_inv {N M : Nat} {s : PoolState} (h : Reach N M s) : PoolInv N M s := by
  induction h with
  | init =>
      refine ⟨List.length_replicate .., by simp [initState], ?_, ?_, ?_, ?_, ?_, ?_⟩
      · intro r
        simp [initState, busyList_replicate_idle]
      · intro hmem
        have := List.eq_of_mem_replicate (show WStatus.done ∈
          List.replicate N WStatus.idle from hmem)
        cases this
      · intro hcl
        cases hcl
      · exact Nat.zero_le 1
      · simp [initState]
      · intro p hp
        cases hp
  | step hr hs ih =>
      cases hs with
      | claim pre post j q b c cl cc ks =>
          obtain ⟨wlen, conserve, resCount, doneEmpty, closedDone,
            closeOnce, closeIff, wid⟩ := ih
          refine ⟨?_, ?_, ?_, ?_, ?_, closeOnce, closeIff, ?_⟩
          · simpa using wlen
          · simpa [List.append_assoc] using conserve
          · intro r
            have h0 := resCount r
            simp only [busyList_append, busyList_idle_cons, busyList_busy_cons,
              List.map_append, List.map_cons, List.count_append,
              List.count_cons] at h0 ⊢
            omega
          · intro hmem
            have hd : WStatus.done ∈ pre ++ WStatus.idle :: post := by
              rcases List.mem_append.1 hmem with h1 | h1
              · exact List.mem_append.2 (Or.inl h1)
              · rcases List.mem_cons.1 h1 with h2 | h2
                · cases h2
                · exact List.mem_append.2 (Or.inr (List.mem_cons_of_mem _ h2))
            have := doneEmpty hd
            cases this
          · intro hcl
            have := closedDone hcl (WStatus.idle)
              (List.mem_append.2 (Or.inr (List.mem_cons_self _ _)))
            cases this
          · intro p hp
            rcases List.mem_append.1 hp with h1 | h1
            · exact wid p h1
            · rcases List.mem_singleton.1 h1 with rfl
              have h2 : pre.length < (pre ++ WStatus.idle :: post).length := by
                simp [List.length_append]
              have h3 := wlen
              simp only [] at h3
              omega
      | publish pre post j q b c cl cc ks =>
          obtain ⟨wlen, conserve, resCount, doneEmpty, closedDone,
            closeOnce, closeIff, wid⟩ := ih
          refine ⟨?_, conserve, ?_, ?_, ?_, closeOnce, closeIff, wid⟩
          · simpa using wlen
          · intro r
            have h0 := resCount r
            simp only [busyList_append, busyList_idle_cons, busyList_busy_cons,
              List.map_append, List.map_cons, List.count_append,
              List.count_cons, List.count_nil] at h0 ⊢
            omega
          · intro hmem
            apply doneEmpty
            rcases List.mem_append.1 hmem with h1 | h1
            · exact List.mem_append.2 (Or.inl h1)
            · rcases List.mem_cons.1 h1 with h2 | h2
              · cases h2
              · exact List.mem_append.2 (Or.inr (List.mem_cons_of_mem _ h2))
          · intro hcl
            have := closedDone hcl (WStatus.busy j)
              (List.mem_append.2 (Or.inr (List.mem_cons_self _ _)))
            cases this
      | retire pre post b c cl cc ks =>
          obtain ⟨wlen, conserve, resCount, doneEmpty, closedDone,
            closeOnce, closeIff, wid⟩ := ih
          refine ⟨?_, conserve, ?_, fun _ => rfl, ?_, closeOnce, closeIff, wid⟩
          · simpa using wlen
          · intro r
            have h0 := resCount r
            simp only [busyList_append, busyList_idle_cons, busyList_done_cons,
              List.map_append, List.count_append] at h0 ⊢
            omega
          · intro hcl
            have := closedDone hcl (WStatus.idle)
              (List.mem_append.2 (Or.inr (List.mem_cons_self _ _)))
            cases this
      | closeRes q ws b c ks hall =>
          obtain ⟨wlen, conserve, resCount, doneEmpty, closedDone,
            closeOnce, closeIff, wid⟩ := ih
          exact ⟨wlen, conserve, resCount, doneEmpty, fun _ => hall,
            le_refl 1, by simp, wid⟩
      | consume r q ws rest c cl cc ks =>
          obtain ⟨wlen, conserve, resCount, doneEmpty, closedDone,
            closeOnce, closeIff, wid⟩ := ih
          refine ⟨wlen, conserve, ?_, doneEmpty, closedDone,
            closeOnce, closeIff, wid⟩
          intro x
          have h0 := resCount x
          simp only [List.count_cons, List.count_append, List.count_nil] at h0 ⊢
          omega

lemma find_busy (l : List WStatus) :
    (∃ pre j post, l = pre ++ WStatus.busy j :: post) ∨
      ∀ w ∈ l, w = WStatus.idle ∨ w = WStatus.done := by
  induction l with
  | nil => exact Or.inr (by intro w hw; cases hw)
  | cons a tl ih =>
      cases a with
      | idle =>
          rcases ih with ⟨pre, j, post, rfl⟩ | hall
          · exact Or.inl ⟨WStatus.idle :: pre, j, post, rfl⟩
          · refine Or.inr ?_
            intro w hw
            rcases List.mem_cons.1 hw with rfl | hw
            · exact Or.inl rfl
            · exact hall w hw
      | busy j => exact Or.inl ⟨[], j, tl, rfl⟩
      | done =>
          rcases ih with ⟨pre, j, post, rfl⟩ | hall
          · exact Or.inl ⟨WStatus.done :: pre, j, post, rfl⟩
          · refine Or.inr ?_
            intro w hw
            rcases List.mem_cons.1 hw with rfl | hw
            · exact Or.inr rfl
            · exact hall w hw

lemma find_idle (l : List WStatus) (h : ∀ w ∈ l, w = WStatus.idle ∨ w = WStatus.done) :
    (∃ pre post, l = pre ++ WStatus.idle :: post) ∨
      ∀ w ∈ l, w = WStatus.done := by
  induction l with
  | nil => exact Or.inr (by intro w hw; cases hw)
  | cons a tl ih =>
      rcases h a (List.mem_cons_self a tl) with rfl | rfl
      · exact Or.inl ⟨[], tl, rfl⟩
      · rcases ih (fun w hw => h w (List.mem_cons_of_mem _ hw)) with
          ⟨pre, post, rfl⟩ | hall
        · exact Or.inl ⟨WStatus.done :: pre, post, rfl⟩
        · refine Or.inr ?_
          intro w hw
          rcases List.mem_cons.1 hw with rfl | hw
          · rfl
          · exact hall w hw

/-- Progress: a reachable state is either a completed run or some goroutine
can take its next step; the system never deadlocks. -/
lemma reach_progress {N M : Nat} {s : PoolState} (h : Reach N M s) :
    Completed s ∨ ∃ t, Step s t := by
  have inv := reach_inv h
  obtain ⟨q, ws, b, c, cl, cc, ks⟩ := s
  rcases find_busy ws with ⟨pre, j, post, rfl⟩ | hnb
  · exact Or.inr ⟨_, Step.publish pre post j q b c cl cc ks⟩
  rcases find_idle ws hnb with ⟨pre, post, rfl⟩ | hnd
  · cases q with
    | nil => exact Or.inr ⟨_, Step.retire pre post b c cl cc ks⟩
    | cons j rest => exact Or.inr ⟨_, Step.claim pre post j rest b c cl cc ks⟩
  · cases cl with
    | false =>
        have hcc : cc = 0 := by
          have h1 : cc ≤ 1 := inv.closeOnce
          have h2 : cc ≠ 1 := fun hcc1 => by
            have := inv.closeIff.mpr hcc1
            simp at this
          omega
        subst hcc
        exact Or.inr ⟨_, Step.closeRes q ws b c ks hnd⟩
    | true =>
        cases b with
        | nil => exact Or.inl ⟨hnd, rfl, rfl⟩
        | cons r rest => exact Or.inr ⟨_, Step.consume r q ws rest c true cc ks⟩

/-- Termination measure: strictly decreases on every step of the system, so
no execution can take more than `wpMeasure (initState N M) = 3 * M + N + 1`
steps. -/
def isActive : WStatus → Bool
  | WStatus.done => false
  | _ => true

def wpMeasure (s : PoolState) : Nat :=
  3 * s.queue.length + 2 * (busyList s.workers).length + s.buf.length
    + s.workers.countP isActive
    + (if s.closed then 0 else 1)

lemma step_measure {s t : PoolState} (h : Step s t) :
    wpMeasure t < wpMeasure s := by
  cases h with
  | claim pre post j q b c cl cc ks =>
      simp [wpMeasure, isActive, busyList_append, busyList_idle_cons,
        busyList_busy_cons, List.countP_append, List.countP_cons]
      omega
  | publish pre post j q b c cl cc ks =>
      simp [wpMeasure, isActive, busyList_append, busyList_idle_cons,
        busyList_busy_cons, List.countP_append, List.countP_cons]
      omega
  | retire pre post b c cl cc ks =>
      simp [wpMeasure, isActive, busyList_append, busyList_idle_cons,
        busyList_done_cons, List.countP_append, List.countP_cons]
  | closeRes q ws b c ks hall =>
      simp [wpMeasure]
  | consume r q ws rest c cl cc ks =>
      simp [wpMeasure]

lemma busyList_of_done {l : List WStatus} (h : ∀ w ∈ l, w = WStatus.done) :
    busyList l = [] := by
  induction l with
  | nil => rfl
  | cons a tl ih =>
      have ha := h a (List.mem_cons_self a tl)
      subst ha
      exact ih fun w hw => h w (List.mem_cons_of_mem _ hw)

lemma completed_queue_nil {N M : Nat} {s : PoolState} (hN : 1 ≤ N)
    (h : Reach N M s) (hc : Completed s) : s.queue = [] := by
  have inv := reach_inv h
  have hne : s.workers ≠ [] := by
    intro hnil
    have := inv.wlen
    rw [hnil] at this
    simp at this
    omega
  obtain ⟨w, hw⟩ := List.exists_mem_of_ne_nil _ hne
  have := hc.1 w hw
  subst this
  exact inv.doneEmpty hw

/-- In a completed run with at least one worker, the multiset of consumed
results is exactly one `processJob` image per submitted job. -/
lemma completed_perm {N M : Nat} {s : PoolState} (hN : 1 ≤ N)
    (h : Reach N M s) (hc : Completed s) :
    s.collected.Perm ((jobList M).map processJob) := by
  have inv := reach_inv h
  rw [List.perm_iff_count]
  intro r
  have h0 := inv.resCount r
  rw [completed_queue_nil hN h hc, busyList_of_done hc.1, hc.2.2] at h0
  simpa using h0

/-- Job held by a worker that has claimed but not yet published, used for the
single-worker ordering argument. -/
def pendingOf : WStatus → List Nat
  | WStatus.busy j => [j]
  | _ => []

lemma single_decomp {pre post : List WStatus} {x st : WStatus}
    (h : pre ++ x :: post = [st]) : pre = [] ∧ x = st ∧ post = [] := by
  cases pre with
  | nil =>
      simp at h
      exact ⟨rfl, h.1, h.2⟩
  | cons a tl =>
      simp [List.cons_append] at h

/-- Single-worker ordering invariant: with `N = 1` the consumed results,
followed by the buffered results, followed by the result of the job the
worker currently holds, list the claimed jobs in claim order, doubled. The
one worker must publish job `k` before it can claim job `k + 1`, and the
`results` channel is FIFO, so no reordering is possible. -/
lemma reach_ord {M : Nat} {s : PoolState} (h : Reach 1 M s) :
    ∃ st, s.workers = [st] ∧
      s.collected ++ s.buf ++ (pendingOf st).map processJob
        = (s.claims.map Prod.snd).map processJob := by
  induction h with
  | init => exact ⟨WStatus.idle, rfl, by simp [initState, pendingOf]⟩
  | step hr hs ih =>
      obtain ⟨st, hws, heq⟩ := ih
      cases hs with
      | claim pre post j q b c cl cc ks =>
          obtain ⟨hpre, hst, hpost⟩ := single_decomp hws
          subst hpre; subst hpost
          refine ⟨WStatus.busy j, rfl, ?_⟩
          rw [← hst] at heq
          simp only [pendingOf, List.map_nil, List.map_cons,
            List.append_nil] at heq
          simp [pendingOf, heq, List.append_assoc]
      | publish pre post j q b c cl cc ks =>
          obtain ⟨hpre, hst, hpost⟩ := single_decomp hws
          subst hpre; subst hpost
          refine ⟨WStatus.idle, rfl, ?_⟩
          rw [← hst] at heq
          simp only [pendingOf, List.map_cons, List.map_nil] at heq ⊢
          simpa [List.append_assoc] using heq
      | retire pre post b c cl cc ks =>
          obtain ⟨hpre, hst, hpost⟩ := single_decomp hws
          subst hpre; subst hpost
          refine ⟨WStatus.done, rfl, ?_⟩
          rw [← hst] at heq
          simpa [pendingOf] using heq
      | closeRes q ws b c ks hall => exact ⟨st, hws, heq⟩
      | consume r q ws rest c cl cc ks =>
          refine ⟨st, hws, ?_⟩
          simpa [List.append_assoc] using heq

/-- Schedule builder: the worker at position `pre.length` alone claims and
publishes every job remaining in the queue, in order. -/
lemma drain_one {N M : Nat} (pre post : List WStatus) :
    ∀ (q b c : List Nat) (cl : Bool) (cc : Nat) (ks : List (Nat × Nat)),
    Reach N M ⟨q, pre ++ WStatus.idle :: post, b, c, cl, cc, ks⟩ →
    Reach N M ⟨[], pre ++ WStatus.idle :: post, b ++ q.map processJob, c, cl,
      cc, ks ++ q.map fun j => (pre.length, j)⟩ := by
  intro q
  induction q with
  | nil =>
      intro b c cl cc ks h
      simpa using h
  | cons j rest ih =>
      intro b c cl cc ks h
      have h1 := Reach.step h (Step.claim pre post j rest b c cl cc ks)
      have h2 := Reach.step h1
        (Step.publish pre post j rest b c cl cc (ks ++ [(pre.length, j)]))
      have h3 := ih (b ++ [processJob j]) c cl cc (ks ++ [(pre.length, j)]) h2
      simpa [List.append_assoc] using h3

/-- Schedule builder: all remaining idle workers see the exhausted job queue
and exit one after the other. -/
lemma retire_chunk {N M : Nat} :
    ∀ (post pre : List WStatus) (b c : List Nat) (cl : Bool) (cc : Nat)
      (ks : List (Nat × Nat)),
    (∀ w ∈ post, w = WStatus.idle) →
    Reach N M ⟨[], pre ++ post, b, c, cl, cc, ks⟩ →
    Reach N M ⟨[], pre ++ List.replicate post.length WStatus.done, b, c, cl,
      cc, ks⟩ := by
  intro post
  induction post with
  | nil =>
      intro pre b c cl cc ks _ h
      simpa using h
  | cons a tl ih =>
      intro pre b c cl cc ks hidle h
      have ha := hidle a (List.mem_cons_self a tl)
      subst ha
      have h1 := Reach.step h (Step.retire pre tl b c cl cc ks)
      have h2 := ih (pre ++ [WStatus.done]) b c cl cc ks
        (fun w hw => hidle w (List.mem_cons_of_mem _ hw))
        (by simpa [List.append_assoc] using h1)
      simpa [List.append_assoc, List.replicate_succ] using h2

/-- Schedule builder: the consumer receives every buffered result in order. -/
lemma consume_chunk {N M : Nat} :
    ∀ (b q : List Nat) (ws : List WStatus) (c : List Nat) (cl : Bool)
      (cc : Nat) (ks : List (Nat × Nat)),
    Reach N M ⟨q, ws, b, c, cl, cc, ks⟩ →
    Reach N M ⟨q, ws, [], c ++ b, cl, cc, ks⟩ := by
  intro b
  induction b with
  | nil =>
      intro q ws c cl cc ks h
      simpa using h
  | cons r rest ih =>
      intro q ws c cl cc ks h
      have h1 := Reach.step h (Step.consume r q ws rest c cl cc ks)
      have h2 := ih q ws (c ++ [r]) cl cc ks h1
      simpa [List.append_assoc] using h2

/-- Completed run of a pool with one worker and an empty batch. -/
def stateA : PoolState := ⟨[], [WStatus.done], [], [], true, 1, []⟩

lemma reach_stateA : Reach 1 0 stateA :=
  Reach.step (Reach.step Reach.init (Step.retire [] [] [] [] false 0 []))
    (Step.closeRes [] [WStatus.done] [] [] [] (by decide))

lemma completed_stateA : Completed stateA := by decide

/-- Final state of the sequential schedule for the demo constants
`numWorkers = 3`, `numJobs = 9`: worker 0 processes all nine jobs, all three
workers exit, the channel is closed and the consumer drains it. -/
def c10state : PoolState :=
  ⟨[], List.replicate 3 WStatus.done, [], [2, 4, 6, 8, 10, 12, 14, 16, 18],
   true, 1, [(0, 1), (0, 2), (0, 3), (0, 4), (0, 5), (0, 6), (0, 7), (0, 8),
             (0, 9)]⟩

lemma reach_c10state : Reach 3 9 c10state := by
  have h1 := drain_one (N := 3) (M := 9) [] [WStatus.idle, WStatus.idle]
    (jobList 9) [] [] false 0 [] Reach.init
  have h2 := retire_chunk (N := 3) (M := 9)
    [WStatus.idle, WStatus.idle, WStatus.idle] [] _ _ false 0 _
    (by decide) h1
  have h3 := Reach.step h2 (Step.closeRes _ _ _ _ _ (by decide))
  have h4 := consume_chunk _ _ _ _ _ _ _ h3
  convert h4 using 1

lemma completed_c10state : Completed c10state := by decide

/-- Completed run of a pool with zero workers and one job: the WaitGroup
counter is zero from the start, so the closer goroutine closes the channel
immediately and the consumer sees zero results; the job is never claimed. -/
def c5state : PoolState := ⟨[1], [], [], [], true, 1, []⟩

lemma reach_c5state : Reach 0 1 c5state :=
  Reach.step Reach.init (Step.closeRes (jobList 1) [] [] [] [] (by decide))

lemma jobList_length (M : Nat) : (jobList M).length = M := by
  simp [jobList]

lemma jobList_nodup (M : Nat) : (jobList M).Nodup :=
  List.Nodup.map (fun a b hab => by omega) (List.nodup_range M)

lemma countP_active_replicate (n : Nat) :
    (List.replicate n WStatus.idle).countP isActive = n := by
  induction n with
  | zero => rfl
  | succ n ih => simp [List.replicate_succ, List.countP_cons, isActive, ih]

lemma wpMeasure_init (N M : Nat) :
    wpMeasure (initState N M) = 3 * M + N + 1 := by
  simp [wpMeasure, initState, busyList_replicate_idle, jobList_length,
    countP_active_replicate]

/-- Shallow embedding of `divide` (main.go:58-69). The two Go `float64`
arguments are modelled as rationals; the branch is the same decidable
comparison `b == 0` as in the source, the error branch returns the zero
value together with the `division by zero` error, and the normal branch
returns the quotient with a nil error (modelled as `none`). The function is
total: it never panics. -/
def divide (a b : ℚ) : ℚ × Option String :=
  if b = 0 then (0, some ("division by zero")) else (a / b, none)

/-- Sequential reference semantics used by the spec for the single-worker
case: the per-job computation mapped over the batch in submission order. -/
def sequentialRun (M : Nat) : List Nat := (jobList M).map processJob

/-- C1: for every batch size M ≥ 0 and worker count N ≥ 1, every completed
run of the worker pool collects exactly M results - one per submitted job,
none missing, none duplicated: the collected list is a permutation of the
image of the batch under the per-job computation. -/
theorem pool_one_result_per_job {N M : Nat} {s : PoolState} (hN : 1 ≤ N)
    (h : Reach N M s) (hc : Completed s) :
    s.collected.length = M ∧
      s.collected.Perm ((jobList M).map processJob) := by
  have hp := completed_perm hN h hc
  refine ⟨?_, hp⟩
  have := hp.length_eq
  simpa [jobList_length] using this

/-- Witness for C1: the explicit completed run `stateA` of a pool with one
worker and an empty batch. -/
theorem pool_one_result_per_job_witness :
    stateA.collected.length = 0 ∧
      stateA.collected.Perm ((jobList 0).map processJob) :=
  pool_one_result_per_job (le_refl 1) reach_stateA completed_stateA

/-- C2: exactly-once processing. In every reachable state of a pool with
N ≥ 1 workers, no job occurs twice in the claim history (no two workers ever
receive the same job instance) and every claim was made by one of the N
workers; in a completed run the claimed jobs are exactly the submitted batch
in submission order, so no job is left unprocessed. -/
theorem pool_exactly_once {N M : Nat} {s : PoolState} (hN : 1 ≤ N)
    (h : Reach N M s) :
    (s.claims.map Prod.snd).Nodup ∧ (∀ p ∈ s.claims, p.1 < N) ∧
      (Completed s → s.claims.map Prod.snd = jobList M) := by
  have inv := reach_inv h
  refine ⟨?_, inv.wid, ?_⟩
  · have h2 : (s.claims.map Prod.snd ++ s.queue).Nodup := by
      rw [inv.conserve]
      exact jobList_nodup M
    exact h2.of_append_left
  · intro hc
    have hq := completed_queue_nil hN h hc
    have h3 := inv.conserve
    rw [hq, List.append_nil] at h3
    exact h3

/-- Witness for C2 at the explicit completed run `stateA`. -/
theorem pool_exactly_once_witness :
    (stateA.claims.map Prod.snd).Nodup ∧ (∀ p ∈ stateA.claims, p.1 < 1) ∧
      (Completed stateA → stateA.claims.map Prod.snd = jobList 0) :=
  pool_exactly_once (le_refl 1) reach_stateA

/-- C3: safety of the shutdown sequence. In every reachable state the
`close(results)` call has executed at most once, and whenever the channel is
closed every worker has already exited - so the close happens after the last
publish - and the result stream (buffered values plus values already
consumed) holds exactly one result for every claimed job: no trailing result
is lost to a race between the last publish and the close. -/
theorem pool_close_after_quiescence {N M : Nat} {s : PoolState}
    (h : Reach N M s) :
    s.closeCount ≤ 1 ∧
      (s.closed = true →
        (∀ w ∈ s.workers, w = WStatus.done) ∧ s.closeCount = 1 ∧
          (s.buf ++ s.collected).Perm
            ((s.claims.map Prod.snd).map processJob)) := by
  have inv := reach_inv h
  refine ⟨inv.closeOnce, fun hcl =>
    ⟨inv.closedDone hcl, inv.closeIff.mp hcl, ?_⟩⟩
  rw [List.perm_iff_count]
  intro r
  have h0 := inv.resCount r
  rw [busyList_of_done (inv.closedDone hcl)] at h0
  have h1 : ((jobList M).map processJob).count r
      = ((s.claims.map Prod.snd).map processJob).count r
        + (s.queue.map processJob).count r := by
    rw [← inv.conserve]
    simp [List.count_append]
  simp only [List.count_append]
  simp only [busyList, List.filterMap_nil, List.map_nil, List.count_nil] at h0
  omega

/-- Witness for C3 at the initial state of a pool with one worker and one
job. -/
theorem pool_close_after_quiescence_witness :
    (initState 1 1).closeCount ≤ 1 ∧
      ((initState 1 1).closed = true →
        (∀ w ∈ (initState 1 1).workers, w = WStatus.done) ∧
          (initState 1 1).closeCount = 1 ∧
          ((initState 1 1).buf ++ (initState 1 1).collected).Perm
            (((initState 1 1).claims.map Prod.snd).map processJob)) :=
  pool_close_after_quiescence Reach.init

/-- C4: termination. Every reachable state of the pool either is a completed
run - all workers exited, channel closed, stream drained - or can take a
further step (the system never deadlocks), and every step strictly decreases
the measure `wpMeasure`, which starts at `3 * M + N + 1`; hence every maximal
execution reaches the completed state, and with it the end-of-data signal,
within finitely many steps. -/
theorem pool_terminates {N M : Nat} {s : PoolState} (h : Reach N M s) :
    (Completed s ∨ ∃ t, Step s t) ∧
      (∀ t, Step s t → wpMeasure t < wpMeasure s) ∧
      wpMeasure (initState N M) = 3 * M + N + 1 :=
  ⟨reach_progress h, fun _ ht => step_measure ht, wpMeasure_init N M⟩

/-- Witness for C4 at the initial state of a pool with one worker and one
job. -/
theorem pool_terminates_witness :
    (Completed (initState 1 1) ∨ ∃ t, Step (initState 1 1) t) ∧
      (∀ t, Step (initState 1 1) t →
        wpMeasure t < wpMeasure (initState 1 1)) ∧
      wpMeasure (initState 1 1) = 3 * 1 + 1 + 1 :=
  pool_terminates Reach.init

/-- C5 counterexample: the code performs no worker-count validation and has
no error path at pool construction (main.go:424-449 contains no check of
`numWorkers` and no `InvalidConfiguration` value). With N = 0 workers and
batch [1], instead of failing at construction the run reaches a normally
completed state: the channel is closed, zero results are delivered, and the
submitted job sits unclaimed in the queue, silently dropped. -/
theorem pool_zero_workers_completes :
    Reach 0 1 c5state ∧ Completed c5state ∧ c5state.collected = [] ∧
      c5state.queue = [1] :=
  ⟨reach_c5state, by decide, rfl, rfl⟩

/-- C5 amended: a pool whose worker count is non-positive is not rejected
and raises no error - the code has no validation or error value; instead,
with N = 0, every reachable state still holds the entire untouched batch in
the job queue, no job is ever claimed, and the consumer receives zero
results (the batch is silently dropped). For positive N no error is raised
either, trivially, since no error path exists. -/
theorem pool_zero_workers_drops_jobs {M : Nat} {s : PoolState}
    (h : Reach 0 M s) :
    s.collected = [] ∧ s.claims = [] ∧ s.queue = jobList M := by
  induction h with
  | init => exact ⟨rfl, rfl, rfl⟩
  | step hr hs ih =>
      have inv := reach_inv hr
      cases hs with
      | claim pre post j q b c cl cc ks =>
          exfalso
          have hl : (pre ++ WStatus.idle :: post).length = 0 := inv.wlen
          simp at hl
      | publish pre post j q b c cl cc ks =>
          exfalso
          have hl : (pre ++ WStatus.busy j :: post).length = 0 := inv.wlen
          simp at hl
      | retire pre post b c cl cc ks =>
          exfalso
          have hl : (pre ++ WStatus.idle :: post).length = 0 := inv.wlen
          simp at hl
      | closeRes q ws b c ks hall => exact ih
      | consume r q ws rest c cl cc ks =>
          exfalso
          have hws : ws = [] := List.eq_nil_of_length_eq_zero inv.wlen
          have hq : q = jobList M := ih.2.2
          have hc : c = [] := ih.1
          have h0 := inv.resCount r
          rw [hws] at h0
          rw [hq, hc] at h0
          simp only [busyList, List.filterMap_nil, List.map_nil,
            List.count_nil, List.count_cons_self] at h0
          omega

/-- Witness for C5 amended, at the initial state with zero workers and one
job. -/
theorem pool_zero_workers_drops_jobs_witness :
    (initState 0 1).collected = [] ∧ (initState 0 1).claims = [] ∧
      (initState 0 1).queue = jobList 1 :=
  pool_zero_workers_drops_jobs Reach.init

/-- C6: empty batch. With M = 0 and any N ≥ 1, no reachable state ever
claims a job or collects a result - every worker sees the exhausted queue
and exits without processing anything - and a completed state with zero
results is reachable, so the end-of-data signal still fires. -/
theorem pool_empty_batch {N : Nat} {s : PoolState} (hN : 1 ≤ N)
    (h : Reach N 0 s) :
    (s.claims = [] ∧ s.collected = []) ∧
      ∃ t, Reach N 0 t ∧ Completed t ∧ t.collected = [] := by
  constructor
  · have inv := reach_inv h
    constructor
    · have h1 := inv.conserve
      have h2 := congrArg List.length h1
      simp [jobList_length] at h2
      exact h2.1
    · rw [List.eq_nil_iff_forall_not_mem]
      intro a ha
      have h0 := inv.resCount a
      have h2 : ((jobList 0).map processJob).count a = 0 := by
        simp [jobList]
      have h3 : s.collected.count a ≠ 0 := fun hz =>
        (List.count_eq_zero.mp hz) ha
      omega
  · have h1 := retire_chunk (N := N) (M := 0)
      (List.replicate N WStatus.idle) [] [] [] false 0 []
      (fun w hw => List.eq_of_mem_replicate hw) Reach.init
    simp only [List.length_replicate, List.nil_append] at h1
    have h2 := Reach.step h1
      (Step.closeRes [] (List.replicate N WStatus.done) [] [] []
        (fun w hw => List.eq_of_mem_replicate hw))
    exact ⟨_, h2, ⟨fun w hw => List.eq_of_mem_replicate hw, rfl, rfl⟩, rfl⟩

/-- Witness for C6 at the initial state of a one-worker pool with an empty
batch. -/
theorem pool_empty_batch_witness :
    ((initState 1 0).claims = [] ∧ (initState 1 0).collected = []) ∧
      ∃ t, Reach 1 0 t ∧ Completed t ∧ t.collected = [] :=
  pool_empty_batch (le_refl 1) Reach.init

/-- C7: a single-worker pool degenerates to sequential processing. In every
completed run with N = 1 the collected results are exactly `sequentialRun M`,
the per-job computation mapped over the batch in submission order: M results
whose order matches the submission order of the jobs. -/
theorem pool_single_worker_sequential {M : Nat} {s : PoolState}
    (h : Reach 1 M s) (hc : Completed s) :
    s.collected = sequentialRun M ∧ s.collected.length = M := by
  obtain ⟨st, hws, heq⟩ := reach_ord h
  have inv := reach_inv h
  have hq := completed_queue_nil (le_refl 1) h hc
  have hcl : s.claims.map Prod.snd = jobList M := by
    have h3 := inv.conserve
    rw [hq, List.append_nil] at h3
    exact h3
  have hst : st = WStatus.done := by
    apply hc.1
    rw [hws]
    exact List.mem_cons_self _ _
  rw [hst, hc.2.2, hcl] at heq
  simp only [pendingOf, List.map_nil, List.append_nil] at heq
  refine ⟨heq, ?_⟩
  rw [heq]
  simp [sequentialRun, jobList_length]

/-- Witness for C7 at the explicit completed run `stateA` (one worker, empty
batch). -/
theorem pool_single_worker_sequential_witness :
    stateA.collected = sequentialRun 0 ∧ stateA.collected.length = 0 :=
  pool_single_worker_sequential reach_stateA completed_stateA

/-- C8 counterexample: the demo pool supports no cancellation. The claimed
behaviour - cancellation triggered before all jobs are processed leaves the
jobs not yet claimed unstarted, with the run still completing - is
observable in no execution: with one worker and two jobs, no completed run
leaves any job unclaimed in the queue. The cited code (main.go:421-475)
contains no context, stop channel or deadline reaching the pool. -/
theorem pool_no_cancellation :
    ¬ ∃ s, Reach 1 2 s ∧ Completed s ∧ s.queue ≠ [] := by
  rintro ⟨s, hr, hc, hq⟩
  exact hq (completed_queue_nil (le_refl 1) hr hc)

/-- C8 amended: the demo pool offers no external cancellation signal;
nothing can stop the workers from draining the queue. In every completed run
with N ≥ 1 the job queue is empty and all M submitted jobs were claimed, so
a shortfall of unprocessed jobs is never observable and no unprocessed-job
count is ever reported (the completion barrier does always reach zero, as
the termination theorem shows, but only because every job is processed). -/
theorem pool_runs_to_exhaustion {N M : Nat} {s : PoolState} (hN : 1 ≤ N)
    (h : Reach N M s) (hc : Completed s) :
    s.queue = [] ∧ s.claims.length = M := by
  have hq := completed_queue_nil hN h hc
  refine ⟨hq, ?_⟩
  have inv := reach_inv h
  have h1 := inv.conserve
  rw [hq, List.append_nil] at h1
  have h2 := congrArg List.length h1
  simpa [jobList_length] using h2

/-- Witness for C8 amended at the explicit completed run `stateA`. -/
theorem pool_runs_to_exhaustion_witness :
    stateA.queue = [] ∧ stateA.claims.length = 0 :=
  pool_runs_to_exhaustion (le_refl 1) reach_stateA completed_stateA

/-- C9: `divide` (main.go:58-69) returns a non-nil error - and then the
value 0 and the single division-by-zero error - exactly when the divisor is
zero, and otherwise returns the quotient with a nil error; being a total
function of its arguments, it never panics, and the divisor test is its only
error source. -/
theorem divide_error_iff_zero (a b : ℚ) :
    ((divide a b).2 ≠ none ↔ b = 0) ∧
      (b = 0 → divide a b = (0, some ("division by zero"))) ∧
      (b ≠ 0 → divide a b = (a / b, none)) := by
  by_cases hb : b = 0 <;> simp [divide, hb]

/-- Witness for C9 at the two calls made by `main` (main.go:645,660):
divide(10, 2) succeeds with 5 and divide(10, 0) errors. -/
theorem divide_error_iff_zero_witness :
    (divide 10 0).2 ≠ none ∧ divide 10 2 = (5, none) := by
  refine ⟨(divide_error_iff_zero 10 0).1.mpr rfl, ?_⟩
  have h := (divide_error_iff_zero 10 2).2.2 (by norm_num)
  rw [h]
  norm_num

/-- C10: in the demo configuration - N = 3 workers, M = 9 jobs numbered 1
to 9 - every completed run collects exactly the doubles of the nine jobs:
the multiset of collected results is {2, 4, 6, 8, 10, 12, 14, 16, 18}. -/
theorem demo_pool_results {s : PoolState} (h : Reach 3 9 s)
    (hc : Completed s) :
    s.collected.Perm [2, 4, 6, 8, 10, 12, 14, 16, 18] := by
  have hp := completed_perm (by omega) h hc
  have he : (jobList 9).map processJob = [2, 4, 6, 8, 10, 12, 14, 16, 18] :=
    by decide
  rwa [he] at hp

/-- Witness for C10 at the explicit completed run `c10state` of the demo
configuration. -/
theorem demo_pool_results_witness :
    c10state.collected.Perm [2, 4, 6, 8, 10, 12, 14, 16, 18] :=
  demo_pool_results reach_c10state completed_c10state
